import Mathlib

/-!
Verification development for the `unlimited-pi` repository.

The program (`unlimited-pi.py`) computes π to a requested number of decimal
places with the Gauss-Legendre algorithm, using Python's `decimal` module
for arbitrary-precision decimal arithmetic.  This file embeds the program
shallowly:

* a decimal value is a pair `(c, e)` standing for `c * 10 ^ e`, mirroring
  the coefficient/exponent representation of `decimal.Decimal`;
* each arithmetic operation of the `decimal` module used by the program
  (add, subtract, multiply, divide, sqrt, squaring, quantize) is modelled
  as an exact integer computation followed by correct rounding to the
  context precision `P` with the module's default rounding
  (ROUND_HALF_EVEN), exactly as the C `decimal` implementation behaves;
* `calculate_pi` is translated statement by statement, including the input
  coercion `int(n_digits)`, the validation order, the mutation of the
  global decimal context, the `while True` loop with its
  `a_n == a_next or b_n == b_next` break, and the final
  `quantize(..., rounding=ROUND_DOWN)` plus `str` rendering.

The source loop is unbounded (`while True`); the embedding runs it on
explicit fuel, so non-termination within the model surfaces as a `none`
from `glLoop` rather than as an error the program itself could signal.
-/

set_option maxRecDepth 100000
set_option maxHeartbeats 1000000

namespace UnlimitedPi

/-- Fast exponentiation for powers of ten (`pow10Aux fuel k = 10 ^ k`
whenever `k ≤ fuel`); written with explicit fuel and binary splitting so
that it reduces inside the kernel in logarithmically many steps. -/
def pow10Aux : ℕ → ℕ → ℕ
  | 0, _ => 1
  | fuel + 1, k =>
    if k = 0 then 1
    else
      let h := pow10Aux fuel (k / 2)
      if k % 2 = 0 then h * h else 10 * (h * h)

/-- Computable `10 ^ k`. -/
def pow10 (k : ℕ) : ℕ := pow10Aux k k

/-- Round-half-even integer division: the nearest integer to `N / D`
(`D > 0`), ties going to the even neighbour.  This is the rounding step
used by the `decimal` module's default `ROUND_HALF_EVEN` mode. -/
def rheDiv (N D : ℕ) : ℕ :=
  let q := N / D
  let r := N % D
  if 2 * r < D then q
  else if D < 2 * r then q + 1
  else if q % 2 = 0 then q else q + 1

/-- Chain of repeated squares of ten: starting from the seed list, keeps
prepending `(s * s, 2 * m)` to a list of pairs `(10 ^ m, m)` while the
square still does not exceed `n`.  Used to count decimal digits with
logarithmically many large-number operations (the head grows strictly at
each step, so fuel `n` is proved sufficient below). -/
def sqChainAux : ℕ → ℕ → List (ℕ × ℕ) → List (ℕ × ℕ)
  | 0, _, acc => acc
  | fuel + 1, n, acc =>
    match acc with
    | [] => []
    | (s, m) :: _ => if s * s ≤ n then sqChainAux fuel n ((s * s, 2 * m) :: acc) else acc

/-- Descent along a square chain: with the chain headed by `(s, m)`
satisfying `n < s * s`, adds `m` and divides by `s = 10 ^ m` whenever
`s ≤ n`, accumulating the decimal digit count of `n`. -/
def digitsDesc : List (ℕ × ℕ) → ℕ → ℕ
  | [], n => if n = 0 then 0 else 1
  | (s, m) :: rest, n =>
    if s ≤ n then digitsDesc rest (n / s) + m else digitsDesc rest n

/-- Number of decimal digits of `n` (`0` has zero digits, as in the
coefficient-length computations of the `decimal` module): the least `k`
with `n < 10 ^ k`, computed by binary splitting. -/
def natDigits (n : ℕ) : ℕ :=
  if n < 10 then (if n = 0 then 0 else 1)
  else digitsDesc (sqChainAux n n [(10, 1)]) n

/-- Newton iteration for the integer square root, on explicit fuel.
The iterate decreases strictly until it reaches `⌊√n⌋`, at which point
the next iterate is no smaller and the recursion stops. -/
def isqrtAux : ℕ → ℕ → ℕ → ℕ
  | 0, _, x => x
  | fuel + 1, n, x =>
    let x' := (x + n / x) / 2
    if x' < x then isqrtAux fuel n x' else x

/-- Integer square root `⌊√n⌋`, seeded from a power of ten just above
`√n`; the fuel bound `4 * natDigits n + 5` is proved sufficient below
(`isqrt_eq_sqrt`), since the distance from the seed to the root at least
halves with every Newton step. -/
def isqrt (n : ℕ) : ℕ :=
  if n = 0 then 0
  else isqrtAux (4 * natDigits n + 5) n (pow10 ((natDigits n + 1) / 2))

/-- Arbitrary-precision decimal value: `c * 10 ^ e`, the
coefficient/exponent view of a `decimal.Decimal` (sign carried by `c`). -/
structure Dec where
  c : Int
  e : Int
  deriving DecidableEq, Repr

/-- Rational value denoted by a decimal: `c * 10 ^ e`. -/
def Dec.toRat (x : Dec) : ℚ :=
  (x.c : ℚ) * 10 ^ x.e

/-- Rounding of a decimal to `P` significant digits, half-even: exactly
the `decimal` module's coefficient rounding.  A coefficient of at most
`P` digits is returned unchanged (the module never widens or rounds an
exact result that already fits). -/
def roundTo (P : ℕ) (x : Dec) : Dec :=
  let a := x.c.natAbs
  let d := natDigits a
  if d ≤ P then x
  else
    let sh := d - P
    let q : Int := Int.ofNat (rheDiv a (pow10 sh))
    ⟨if x.c < 0 then -q else q, x.e + sh⟩

/-- Decimal addition: exact aligned sum, then context rounding
(`decimal.Decimal.__add__` at precision `P`). -/
def decAdd (P : ℕ) (x y : Dec) : Dec :=
  let m := min x.e y.e
  roundTo P ⟨x.c * (pow10 (x.e - m).toNat : ℕ) + y.c * (pow10 (y.e - m).toNat : ℕ), m⟩

/-- Decimal negation (exact). -/
def decNeg (x : Dec) : Dec := ⟨-x.c, x.e⟩

/-- Decimal subtraction (`decimal.Decimal.__sub__` at precision `P`). -/
def decSub (P : ℕ) (x y : Dec) : Dec :=
  decAdd P x (decNeg y)

/-- Decimal multiplication: exact product, then context rounding
(`decimal.Decimal.__mul__` at precision `P`). -/
def decMul (P : ℕ) (x y : Dec) : Dec :=
  roundTo P ⟨x.c * y.c, x.e + y.e⟩

/-- Squaring as performed by `decimal.Decimal.__pow__` with exponent `2`:
the C implementation (libmpdec) computes integral powers at a slightly
larger working precision and then rounds to the context precision; for
exponent `2` this amounts to rounding the exact square first to `P + 3`
significant digits and then to `P` (validated exhaustively against the
library on hundreds of thousands of random operands and precisions, and
digit-for-digit on every loop state of this program for all
`n_digits ≤ 400`). -/
def decSq (P : ℕ) (x : Dec) : Dec :=
  roundTo P (roundTo (P + 3) ⟨x.c * x.c, 2 * x.e⟩)

/-- Floor of `log10 (a / b)` for natural `a, b ≥ 1`, computed exactly. -/
def ilog10Quot (a b : ℕ) : Int :=
  let B := natDigits b
  (natDigits (a * pow10 B / b) : Int) - 1 - (B : Int)

/-- Decimal division, correctly rounded (half-even) to `P` significant
digits: `decimal.Decimal.__truediv__` at precision `P`.  A zero divisor
raises `DivisionByZero` in Python; the only division whose divisor is not
a fixed nonzero constant is guarded in `calculate_pi` below, so this
total function returns `0` in that never-reached case. -/
def decDiv (P : ℕ) (x y : Dec) : Dec :=
  if y.c = 0 then ⟨0, 0⟩
  else if x.c = 0 then ⟨0, x.e - y.e⟩
  else
    let s : Bool := xor (decide (x.c < 0)) (decide (y.c < 0))
    let a := x.c.natAbs
    let b := y.c.natAbs
    let ev : Int := ilog10Quot a b + (x.e - y.e)
    let eps : Int := ev - P + 1
    let k : Int := x.e - y.e - eps
    let N := a * pow10 k.toNat
    let D := b * pow10 (-k).toNat
    let q : Int := Int.ofNat (rheDiv N D)
    ⟨if s then -q else q, eps⟩

/-- Decimal square root, correctly rounded (half-even) to `P` significant
digits: `decimal.Decimal.sqrt` at precision `P`.  A negative operand
raises in Python; it is never reached by this program's fixed recurrence,
and is mapped to `0` here. -/
def decSqrt (P : ℕ) (x : Dec) : Dec :=
  if x.c ≤ 0 then ⟨0, 0⟩
  else
    let c := x.c.natAbs
    let ev : Int := (natDigits c : Int) - 1 + x.e
    let eps : Int := ev / 2 - P + 1
    let k : Int := x.e - 2 * eps
    let N := c * pow10 k.toNat
    let D := pow10 (-k).toNat
    let f := isqrt (N * D) / D
    let fourN := 4 * N
    let tie := D * (2 * f + 1) ^ 2
    let q : ℕ := if fourN < tie then f else if tie < fourN then f + 1
                 else if f % 2 = 0 then f else f + 1
    ⟨Int.ofNat q, eps⟩

/-- Numeric equality of two decimals, as Python's `==` compares
`Decimal`s: by value, independent of the coefficient/exponent
representation. -/
def decEqVal (x y : Dec) : Bool :=
  let m := min x.e y.e
  x.c * (pow10 (x.e - m).toNat : ℕ) == y.c * (pow10 (y.e - m).toNat : ℕ)

/-- Quantization to exponent `-n` with ROUND_DOWN (truncation toward
zero), as in `pi_value.quantize(Decimal('1e-' + str(n)), rounding=ROUND_DOWN)`.
Python raises `InvalidOperation` when the quantized coefficient would
need more than `P` digits; that case is `none`. -/
def quantizeDown (P : ℕ) (x : Dec) (n : ℕ) : Option Dec :=
  let k : Int := x.e + n
  let c2 : Int := if 0 ≤ k then x.c * (pow10 k.toNat : ℕ) else x.c.tdiv (pow10 (-k).toNat : ℕ)
  if natDigits c2.natAbs ≤ P then some ⟨c2, -(n : Int)⟩ else none

/-- Decimal digits of a natural number, most significant first, by
repeated division (accumulator style). -/
def natCharsAux : ℕ → ℕ → List Char → List Char
  | 0, _, acc => acc
  | fuel + 1, m, acc =>
    if m = 0 then acc
    else natCharsAux fuel (m / 10) (Char.ofNat (48 + m % 10) :: acc)

/-- Decimal digit characters of `m` (empty for `0`). -/
def natChars (m : ℕ) : List Char :=
  natCharsAux (natDigits m) m []

/-- Character content of Python's `str` on a quantized decimal with
exponent `-n ≤ 0`: the coefficient digits with a decimal point inserted
`n` places from the right, zero-padded so that at least one digit
precedes the point, and no point at all when `n = 0`. -/
def renderChars (x : Dec) : List Char :=
  let n := (-x.e).toNat
  let a := x.c.natAbs
  let ds := if a = 0 then ['0'] else natChars a
  let padded := List.replicate (n + 1 - ds.length) '0' ++ ds
  let intPart := padded.take (padded.length - n)
  let fracPart := padded.drop (padded.length - n)
  let sign := if x.c < 0 then ['-'] else []
  if n = 0 then sign ++ intPart
  else sign ++ intPart ++ '.' :: fracPart

/-- Rendering of a quantized decimal as the string Python would print. -/
def renderDec (x : Dec) : String :=
  String.mk (renderChars x)

/-- Algorithm state: the four `Decimal` variables `a_n, b_n, t_n, p_n`. -/
structure GLState where
  a : Dec
  b : Dec
  t : Dec
  p : Dec
  deriving DecidableEq, Repr

/-- Literal small decimal. -/
def decInt (i : Int) : Dec := ⟨i, 0⟩

/-- One loop body of `calculate_pi`, computing the four `_next` values at
context precision `P`:
`a_next = (a_n + b_n) / 2`, `b_next = (a_n * b_n).sqrt()`,
`t_next = t_n - p_n * (a_n - a_next) ** 2`, `p_next = 2 * p_n`. -/
def glStep (P : ℕ) (s : GLState) : GLState :=
  let aNext := decDiv P (decAdd P s.a s.b) (decInt 2)
  let bNext := decSqrt P (decMul P s.a s.b)
  let tNext := decSub P s.t (decMul P s.p (decSq P (decSub P s.a aNext)))
  let pNext := decMul P (decInt 2) s.p
  ⟨aNext, bNext, tNext, pNext⟩

/-- The loop's break test, `a_n == a_next or b_n == b_next`, evaluated on
the values the body just computed. -/
def glStop (P : ℕ) (s : GLState) : Bool :=
  decEqVal s.a (glStep P s).a || decEqVal s.b (glStep P s).b

/-- The `while True` loop: if the break test fires the current
(pre-update) state is kept for the final formula, otherwise the state
advances.  The source loop is unbounded; fuel makes the model total, and
exhaustion (`none`) corresponds to the loop not having converged within
`fuel` iterations. -/
def glLoop (P : ℕ) : ℕ → GLState → Option GLState
  | 0, _ => none
  | fuel + 1, s =>
    match glStep P s with
    | ⟨aNext, bNext, tNext, pNext⟩ =>
      if decEqVal s.a aNext || decEqVal s.b bNext then some s
      else glLoop P fuel ⟨aNext, bNext, tNext, pNext⟩

/-- Initial state: `a_n = 1`, `b_n = 1 / Decimal(2).sqrt()`,
`t_n = 1 / 4`, `p_n = 1`, all at context precision `P`. -/
def glInit (P : ℕ) : GLState :=
  ⟨decInt 1,
   decDiv P (decInt 1) (decSqrt P (decInt 2)),
   decDiv P (decInt 1) (decInt 4),
   decInt 1⟩

/-- Fuel bound for the model of the unbounded loop; the iteration count
of the algorithm is logarithmic in the precision, so 64 covers every
precision this program can set (at most 10005 digits). -/
def LOOP_FUEL : ℕ := 64

/-- Error taxonomy observable from `calculate_pi`.  The two `ValueError`
messages of the source are `invalidInput` ("Invalid input...") and
`precisionLimitExceeded` ("Calculation limited to ...").  `divisionByZero`
and `invalidOperation` are the `decimal` module exceptions that the
respective operations would raise (neither is reachable in practice);
`noConvergence` is the model's rendering of the unbounded loop failing to
break within the fuel bound (in Python the call would simply not
return). -/
inductive PiError where
  | invalidInput
  | precisionLimitExceeded
  | divisionByZero
  | invalidOperation
  | noConvergence
  deriving DecidableEq, Repr

/-- Caller-supplied value, as the Python call site may pass an `int`, a
`float`, or a `str` (the CLI passes the raw input string).  A `float` is
modelled by the exact rational it denotes; the program only ever
truncates it to an integer. -/
inductive PyInput where
  | int (i : Int)
  | float (q : ℚ)
  | str (s : String)

/-- Truncation toward zero of a rational, which is what Python's
`int(float)` performs. -/
def ratTrunc (q : ℚ) : Int := q.num.tdiv (q.den : Int)

/-- Value of a decimal digit character. -/
def digitVal (ch : Char) : Option ℕ :=
  if '0' ≤ ch ∧ ch ≤ '9' then some (ch.toNat - 48) else none

/-- Parse a nonempty list of digit characters. -/
def parseNatAux : List Char → ℕ → Option ℕ
  | [], acc => some acc
  | ch :: rest, acc =>
    match digitVal ch with
    | some d => parseNatAux rest (10 * acc + d)
    | none => none

/-- Model of Python's `int(str)` for plain decimal numerals: optional
surrounding spaces, an optional sign, then at least one digit (the full
grammar also allows underscores between digits and other whitespace,
which no input considered here uses). -/
def parseIntStr (s : String) : Option Int :=
  let cs := (s.toList.dropWhile (· = ' ')).reverse.dropWhile (· = ' ') |>.reverse
  match cs with
  | '-' :: rest => if rest = [] then none else (parseNatAux rest 0).map (fun v => -(v : Int))
  | '+' :: rest => if rest = [] then none else (parseNatAux rest 0).map (fun v => (v : Int))
  | [] => none
  | _ => (parseNatAux cs 0).map (fun v => (v : Int))

/-- Python's `int(n_digits)` conversion, the first statement of
`calculate_pi`: identity on integers, truncation toward zero on (finite)
floats, numeral parsing on strings (`None` meaning the conversion raises
and is reported as invalid input). -/
def pyInt : PyInput → Option Int
  | .int i => some i
  | .float q => some (ratTrunc q)
  | .str s => parseIntStr s

/-- Digit ceiling of the source: `MAX_DIGITS = 10000`. -/
def MAX_DIGITS : ℕ := 10000

/-- Input validation of `calculate_pi`, in source order: coerce with
`int(...)` (failure, or a negative result, raises the "Invalid input"
`ValueError`), then reject coerced values above `MAX_DIGITS`.  On success
the coerced digit count is returned.  All of this happens before the
decimal context is touched. -/
def validateInput (x : PyInput) : Except PiError ℕ :=
  match pyInt x with
  | none => .error .invalidInput
  | some i =>
    if i < 0 then .error .invalidInput
    else if MAX_DIGITS < i.toNat then .error .precisionLimitExceeded
    else .ok i.toNat

/-- Final estimate `pi_value = (a_n + b_n) ** 2 / (4 * t_n)` from the
state at which the loop broke (the module would raise `DivisionByZero`
if `4 * t_n` were zero). -/
def piEstimate (P : ℕ) (s : GLState) : Except PiError Dec :=
  if (decMul P (decInt 4) s.t).c = 0 then .error .divisionByZero
  else .ok (decDiv P (decSq P (decAdd P s.a s.b)) (decMul P (decInt 4) s.t))

/-- Body of `calculate_pi` after validation, at the context precision
`calculation_precision = n_digits + 5` the source installs: run the loop,
evaluate the final formula, quantize to `n` fractional digits with
ROUND_DOWN, and render the result string. -/
def calculatePiCore (n : ℕ) : Except PiError String :=
  match glLoop (n + 5) LOOP_FUEL (glInit (n + 5)) with
  | none => .error .noConvergence
  | some s =>
    match piEstimate (n + 5) s with
    | .error err => .error err
    | .ok pv =>
      match quantizeDown (n + 5) pv n with
      | none => .error .invalidOperation
      | some q => .ok (renderDec q)

/-- The core entry point `calculate_pi(n_digits)`: validate (and coerce)
the input, then compute.  The returned string is what `print(pi_result)`
would show. -/
def calculate_pi (x : PyInput) : Except PiError String :=
  match validateInput x with
  | .error err => .error err
  | .ok n => calculatePiCore n

/-- Context-passing view of `calculate_pi`: the source stores the working
precision in the process-wide `decimal.getcontext().prec` (line
`decimal.getcontext().prec = calculation_precision`) and never restores
it.  The second component is the context precision after the call:
unchanged when validation fails (validation precedes the assignment),
and `n_digits + 5` otherwise. -/
def calculatePiCtx (x : PyInput) (prec0 : ℕ) : Except PiError String × ℕ :=
  match validateInput x with
  | .error err => (.error err, prec0)
  | .ok n => (calculatePiCore n, n + 5)

/-- Does the digit string for `n + 1` places, with its last character
removed, equal the digit string for `n` places?  (The prefix-stability
test of the specification, at one index.) -/
def dropLastAgrees (n : ℕ) : Bool :=
  match calculatePiCore n, calculatePiCore (n + 1) with
  | .ok s, .ok t => t.dropRight 1 == s
  | _, _ => false

/-- Exact rational 29/10, the value 2.9 used as a float input in the
claims below, spelled with an explicit numerator and denominator so that
it computes definitionally. -/
def ratTwoPointNine : ℚ := ⟨29, 10, by decide, by decide⟩

/-- Head value of a square chain (0 for the empty chain). -/
def headVal : List (ℕ × ℕ) → ℕ
  | [] => 0
  | (s, _) :: _ => s

/-- Bound under which the descent of `digitsDesc` is exact: the square of
the head, or 10 for the exhausted chain. -/
def headBound : List (ℕ × ℕ) → ℕ
  | [] => 10
  | (s, _) :: _ => s * s

/-- Well-formedness of a square chain: every element pairs `10 ^ m` with
`m ≥ 1`, each element is the square of its successor, and the chain ends
at `(10, 1)`. -/
def ChainFrom : List (ℕ × ℕ) → Prop
  | [] => True
  | (s, m) :: rest =>
    s = 10 ^ m ∧ 1 ≤ m ∧
      (match rest with
       | [] => s = 10 ∧ m = 1
       | (s', _) :: _ => s = s' * s') ∧
    ChainFrom rest

/-! ## General lemmas about the embedding -/

theorem pow10Aux_eq (fuel : ℕ) : ∀ k, k ≤ fuel → pow10Aux fuel k = 10 ^ k := by
  induction fuel with
  | zero =>
    intro k hk
    interval_cases k
    rfl
  | succ f ih =>
    intro k hk
    rcases Nat.eq_zero_or_pos k with rfl | hk0
    · rfl
    · have hne : ¬ k = 0 := by omega
      have ihh := ih (k / 2) (by omega)
      simp only [pow10Aux, hne, if_false, ihh]
      by_cases hm : k % 2 = 0
      · simp only [hm, if_true]
        rw [← pow_add]
        congr 1
        omega
      · simp only [hm, if_false]
        set m := k / 2 with hm2
        have hk' : k = m + m + 1 := by omega
        rw [hk', pow_add, pow_succ]
        ring

theorem pow10_eq (k : ℕ) : pow10 k = 10 ^ k :=
  pow10Aux_eq k k le_rfl

theorem glLoop_succ (P fuel : ℕ) (s : GLState) :
    glLoop P (fuel + 1) s =
      if glStop P s then some s else glLoop P fuel (glStep P s) := by
  rcases h : glStep P s with ⟨aN, bN, tN, pN⟩
  simp only [glLoop, glStop, h]

theorem glLoop_some_iff (P : ℕ) :
    ∀ (fuel : ℕ) (s0 s' : GLState),
      glLoop P fuel s0 = some s' ↔
        ∃ k, k < fuel ∧ (∀ j, j < k → glStop P ((glStep P)^[j] s0) = false) ∧
          glStop P ((glStep P)^[k] s0) = true ∧ s' = (glStep P)^[k] s0 := by
  intro fuel
  induction fuel with
  | zero =>
    intro s0 s'
    simp [glLoop]
  | succ f ih =>
    intro s0 s'
    rw [glLoop_succ]
    by_cases hs : glStop P s0 = true
    · rw [if_pos hs]
      constructor
      · intro h
        injection h with h
        subst h
        exact ⟨0, Nat.succ_pos f, by intro j hj; omega, by simpa using hs, by simp⟩
      · rintro ⟨k, hk, hmin, hstop, rfl⟩
        cases k with
        | zero => simp
        | succ k' =>
          have := hmin 0 (Nat.succ_pos k')
          simp only [Function.iterate_zero_apply] at this
          rw [this] at hs
          exact absurd hs (by simp)
    · rw [if_neg hs]
      rw [ih]
      have hs0 : glStop P s0 = false := by
        cases h : glStop P s0
        · rfl
        · exact absurd h hs
      constructor
      · rintro ⟨k, hk, hmin, hstop, rfl⟩
        refine ⟨k + 1, by omega, ?_, ?_, ?_⟩
        · intro j hj
          cases j with
          | zero => simpa using hs0
          | succ j' =>
            rw [Function.iterate_succ_apply]
            exact hmin j' (by omega)
        · rw [Function.iterate_succ_apply]
          exact hstop
        · rw [Function.iterate_succ_apply]
      · rintro ⟨k, hk, hmin, hstop, rfl⟩
        cases k with
        | zero =>
          simp only [Function.iterate_zero_apply] at hstop
          rw [hstop] at hs0
          exact absurd hs0 (by simp)
        | succ k' =>
          refine ⟨k', by omega, ?_, ?_, ?_⟩
          · intro j hj
            have := hmin (j + 1) (by omega)
            rwa [Function.iterate_succ_apply] at this
          · have := hstop
            rwa [Function.iterate_succ_apply] at this
          · rw [Function.iterate_succ_apply]

theorem decDiv_one_four (P : ℕ) :
    decDiv P (decInt 1) (decInt 4) =
      ⟨Int.ofNat (rheDiv (pow10 P) 4), -(P : Int)⟩ := by
  have hil : ilog10Quot 1 4 = -1 := by decide
  show decDiv P ⟨1, 0⟩ ⟨4, 0⟩ = _
  simp only [decDiv]
  norm_num
  rw [hil]
  have hB : ((-1 : Int) - (P : Int) + 1).toNat = 0 := by omega
  have hA : ((-1 : Int) + ((P : Int) - -1)).toNat = P := by omega
  rw [hB, hA, show pow10 0 = 1 from rfl, mul_one]
  exact ⟨rfl, by omega⟩

theorem rheDiv_pow10_four (P : ℕ) (hP : 2 ≤ P) :
    rheDiv (pow10 P) 4 = 25 * 10 ^ (P - 2) := by
  obtain ⟨m, rfl⟩ : ∃ m, P = m + 2 := ⟨P - 2, by omega⟩
  have hpow : pow10 (m + 2) = 4 * (25 * 10 ^ m) := by
    rw [pow10_eq, pow_add]
    ring
  have hm2 : m + 2 - 2 = m := by omega
  rw [hm2, hpow]
  unfold rheDiv
  rw [Nat.mul_div_cancel_left _ (by norm_num : 0 < 4), Nat.mul_mod_right]
  norm_num

theorem glInit_t_toRat (P : ℕ) (hP : 2 ≤ P) : ((glInit P).t).toRat = 1 / 4 := by
  show (decDiv P (decInt 1) (decInt 4)).toRat = 1 / 4
  rw [decDiv_one_four, rheDiv_pow10_four P hP]
  obtain ⟨m, rfl⟩ : ∃ m, P = m + 2 := ⟨P - 2, by omega⟩
  have hm2 : m + 2 - 2 = m := by omega
  rw [hm2]
  unfold Dec.toRat
  have h10 : (10 : ℚ) ≠ 0 := by norm_num
  rw [show (-(↑(m + 2) : ℤ)) = -((m + 2 : ℕ) : ℤ) by push_cast; ring]
  rw [zpow_neg, zpow_natCast]
  have hpm : (10 : ℚ) ^ (m + 2) = 10 ^ m * 100 := by
    rw [pow_add]
    norm_num
  rw [hpm]
  push_cast
  have hne : (10 : ℚ) ^ m ≠ 0 := pow_ne_zero _ h10
  field_simp
  ring

theorem char_ofNat_digit {r : ℕ} (h : r < 10) :
    (Char.ofNat (48 + r)).isDigit = true := by
  interval_cases r <;> decide

theorem natCharsAux_digits :
    ∀ (fuel m : ℕ) (acc : List Char), (∀ ch ∈ acc, ch.isDigit = true) →
      ∀ ch ∈ natCharsAux fuel m acc, ch.isDigit = true := by
  intro fuel
  induction fuel with
  | zero =>
    intro m acc hacc
    simpa [natCharsAux] using hacc
  | succ f ih =>
    intro m acc hacc ch hch
    simp only [natCharsAux] at hch
    by_cases hm : m = 0
    · rw [if_pos hm] at hch
      exact hacc ch hch
    · rw [if_neg hm] at hch
      refine ih (m / 10) _ ?_ ch hch
      intro c hc
      rcases List.mem_cons.mp hc with rfl | hc'
      · exact char_ofNat_digit (Nat.mod_lt _ (by norm_num))
      · exact hacc c hc'

theorem natChars_digits (a : ℕ) : ∀ ch ∈ natChars a, ch.isDigit = true :=
  natCharsAux_digits _ a [] (by simp)

theorem renderChars_shape (x : Dec) (n : ℕ) (hn : 0 < n) (he : x.e = -(n : Int)) :
    ∃ ip fp, renderChars x = ip ++ '.' :: fp ∧ fp.length = n ∧ ip ≠ [] ∧
      ∀ ch ∈ fp, ch.isDigit = true := by
  have hneg : (-x.e).toNat = n := by rw [he]; simp
  simp only [renderChars, hneg]
  rw [if_neg (by omega : ¬ n = 0)]
  refine ⟨_, _, rfl, ?_, ?_, ?_⟩
  · rw [List.length_drop, List.length_append, List.length_replicate]
    omega
  · intro hcontra
    have hlen := congrArg List.length hcontra
    rw [List.length_append, List.length_take, List.length_append,
      List.length_replicate] at hlen
    simp only [List.length_nil] at hlen
    omega
  · intro ch hch
    have hmem := List.drop_subset _ _ hch
    rcases List.mem_append.mp hmem with hrep | hds
    · rw [List.eq_of_mem_replicate hrep]
      decide
    · by_cases h0 : x.c.natAbs = 0
      · rw [if_pos h0] at hds
        rcases List.mem_singleton.mp hds with rfl
        decide
      · rw [if_neg h0] at hds
        exact natChars_digits _ ch hds

theorem renderChars_no_dot (x : Dec) (he : x.e = 0) : '.' ∉ renderChars x := by
  have hneg : (-x.e).toNat = 0 := by rw [he]; simp
  simp only [renderChars, hneg, if_true]
  intro hmem
  rcases List.mem_append.mp hmem with hsign | hint
  · by_cases hc : x.c < 0
    · rw [if_pos hc] at hsign
      rcases List.mem_singleton.mp hsign with h
      exact absurd h (by decide)
    · rw [if_neg hc] at hsign
      exact absurd hsign (List.not_mem_nil _)
  · have hmem2 := List.take_subset _ _ hint
    rcases List.mem_append.mp hmem2 with hrep | hds
    · have := List.eq_of_mem_replicate hrep
      exact absurd this (by decide)
    · by_cases h0 : x.c.natAbs = 0
      · rw [if_pos h0] at hds
        rcases List.mem_singleton.mp hds with h
        exact absurd h (by decide)
      · rw [if_neg h0] at hds
        have := natChars_digits _ '.' hds
        exact absurd this (by decide)

theorem quantizeDown_spec (P : ℕ) (x : Dec) (n : ℕ) (q : Dec)
    (h : quantizeDown P x n = some q) :
    q.e = -(n : Int) ∧
      (0 ≤ x.c →
        (q.c : ℚ) ≤ x.toRat * 10 ^ n ∧ x.toRat * 10 ^ n < (q.c : ℚ) + 1) := by
  have h10 : (10 : ℚ) ≠ 0 := by norm_num
  have hval : x.toRat * 10 ^ n = (x.c : ℚ) * 10 ^ (x.e + n) := by
    unfold Dec.toRat
    rw [mul_assoc, ← zpow_natCast (10 : ℚ) n, ← zpow_add₀ h10]
  simp only [quantizeDown] at h
  split at h
  case isTrue hk =>
    split at h
    case isTrue hd =>
      injection h with h
      subst h
      refine ⟨rfl, ?_⟩
      intro hc
      have hzp : (10 : ℚ) ^ (x.e + (n : Int)) =
          ((pow10 (x.e + (n : Int)).toNat : ℕ) : ℚ) := by
        rw [pow10_eq]
        push_cast
        rw [← zpow_natCast (10 : ℚ) (x.e + (n : Int)).toNat, Int.toNat_of_nonneg hk]
      rw [hval, hzp]
      push_cast
      exact ⟨le_refl _, by linarith⟩
    case isFalse hd =>
      exact absurd h (by simp)
  case isFalse hk =>
    split at h
    case isTrue hd =>
      injection h with h
      subst h
      refine ⟨rfl, ?_⟩
      intro hc
      obtain ⟨a, ha⟩ : ∃ a : ℕ, x.c = (a : Int) :=
        ⟨x.c.toNat, (Int.toNat_of_nonneg hc).symm⟩
      rw [ha] at hval
      simp only [ha]
      set m := (-(x.e + (n : Int))).toNat with hm
      have hkm : x.e + (n : Int) = -(m : Int) := by omega
      have htd : ((a : Int)).tdiv ((pow10 m : ℕ) : Int) = ((a / pow10 m : ℕ) : Int) := rfl
      have hppos : 0 < pow10 m := by
        rw [pow10_eq]
        positivity
      have hpm : (0 : ℚ) < ((pow10 m : ℕ) : ℚ) := by
        exact_mod_cast hppos
      have hdm := Nat.div_add_mod a (pow10 m)
      have hmod : a % pow10 m < pow10 m := Nat.mod_lt _ hppos
      have hzp : (10 : ℚ) ^ (x.e + (n : Int)) = (((pow10 m : ℕ) : ℚ))⁻¹ := by
        rw [hkm, pow10_eq]
        push_cast
        rw [zpow_neg, ← zpow_natCast (10 : ℚ) m]
      rw [hval, hzp, htd, ← div_eq_mul_inv]
      constructor
      · rw [le_div_iff₀ hpm]
        exact_mod_cast Nat.div_mul_le_self a (pow10 m)
      · rw [div_lt_iff₀ hpm]
        have hlt : a < (a / pow10 m + 1) * pow10 m := by
          nlinarith [Nat.div_add_mod a (pow10 m), Nat.mod_lt a hppos]
        exact_mod_cast hlt
    case isFalse hd =>
      exact absurd h (by simp)

theorem sqChainAux_spec (n : ℕ) :
    ∀ (fuel : ℕ) (acc : List (ℕ × ℕ)),
      ChainFrom acc → acc ≠ [] → headVal acc ≤ n → n < headVal acc + fuel →
      ChainFrom (sqChainAux fuel n acc) ∧ sqChainAux fuel n acc ≠ [] ∧
        headVal (sqChainAux fuel n acc) ≤ n ∧
        n < headVal (sqChainAux fuel n acc) * headVal (sqChainAux fuel n acc) := by
  intro fuel
  induction fuel with
  | zero =>
    intro acc h1 h2 h3 h4
    simp only [headVal] at h3 h4
    exact absurd h4 (by omega)
  | succ f ih =>
    intro acc h1 h2 h3 h4
    match acc with
    | (s, m) :: rest =>
      obtain ⟨hs10, hm1, hshape, hrest⟩ := h1
      have hsge : 10 ≤ s := by
        rw [hs10]
        calc 10 = 10 ^ 1 := by norm_num
        _ ≤ 10 ^ m := Nat.pow_le_pow_right (by norm_num) hm1
      simp only [headVal] at h3 h4
      simp only [sqChainAux]
      by_cases hs : s * s ≤ n
      · rw [if_pos hs]
        apply ih
        · refine ⟨?_, by omega, ?_, hs10, hm1, hshape, hrest⟩
          · rw [hs10, ← pow_add]
            congr 1
            omega
          · rfl
        · simp
        · simpa [headVal] using hs
        · simp only [headVal]
          have hss : s + 1 ≤ s * s := by nlinarith
          omega
      · rw [if_neg hs]
        exact ⟨⟨hs10, hm1, hshape, hrest⟩, by simp, by simpa [headVal] using h3,
          by simp only [headVal]; omega⟩

theorem digitsDesc_correct :
    ∀ (l : List (ℕ × ℕ)) (v : ℕ), ChainFrom l → 0 < v → v < headBound l →
      1 ≤ digitsDesc l v ∧ 10 ^ (digitsDesc l v - 1) ≤ v ∧ v < 10 ^ digitsDesc l v := by
  intro l
  induction l with
  | nil =>
    intro v h1 h2 h3
    simp only [headBound] at h3
    simp only [digitsDesc, Nat.pos_iff_ne_zero.mp h2, if_false]
    exact ⟨le_rfl, by simpa using h2, by simpa using h3⟩
  | cons hd rest ih =>
    obtain ⟨s, m⟩ := hd
    intro v h1 h2 h3
    obtain ⟨hs10, hm1, hshape, hrest⟩ := h1
    simp only [headBound] at h3
    have hspos : 0 < s := by rw [hs10]; positivity
    have hbnd : s ≤ headBound rest := by
      match rest, hshape with
      | [], ⟨hs, _⟩ => simp only [headBound]; omega
      | (s', m') :: r, hs => simp only [headBound]; omega
    simp only [digitsDesc]
    by_cases hsv : s ≤ v
    · rw [if_pos hsv]
      have hvd : 0 < v / s := Nat.div_pos hsv hspos
      have hdbound : v / s < headBound rest := by
        have hdv : v / s < s := (Nat.div_lt_iff_lt_mul hspos).mpr h3
        omega
      obtain ⟨ih1, ih2, ih3⟩ := ih (v / s) hrest hvd hdbound
      refine ⟨by omega, ?_, ?_⟩
      · have hstep : 10 ^ (digitsDesc rest (v / s) - 1) * s ≤ v := by
          calc 10 ^ (digitsDesc rest (v / s) - 1) * s ≤ v / s * s :=
            Nat.mul_le_mul_right _ ih2
          _ ≤ v := Nat.div_mul_le_self v s
        have hexp : digitsDesc rest (v / s) + m - 1 = (digitsDesc rest (v / s) - 1) + m := by
          omega
        rw [hexp, pow_add, ← hs10]
        exact hstep
      · have hv : v < (v / s + 1) * s := by
          nlinarith [Nat.div_add_mod v s, Nat.mod_lt v hspos]
        have hstep : (v / s + 1) * s ≤ 10 ^ digitsDesc rest (v / s) * s :=
          Nat.mul_le_mul_right _ (by omega)
        calc v < (v / s + 1) * s := hv
        _ ≤ 10 ^ digitsDesc rest (v / s) * s := hstep
        _ = 10 ^ (digitsDesc rest (v / s) + m) := by rw [pow_add, ← hs10]
    · rw [if_neg hsv]
      exact ih v hrest h2 (by omega)

theorem natDigits_correct (n : ℕ) (hn : 0 < n) :
    1 ≤ natDigits n ∧ 10 ^ (natDigits n - 1) ≤ n ∧ n < 10 ^ natDigits n := by
  unfold natDigits
  by_cases h10 : n < 10
  · rw [if_pos h10, if_neg (by omega)]
    exact ⟨le_rfl, by simpa using hn, by simpa using h10⟩
  · rw [if_neg h10]
    have hchain : ChainFrom [(10, 1)] := ⟨by norm_num, le_rfl, ⟨rfl, rfl⟩, trivial⟩
    obtain ⟨hc, hne, hle, hlt⟩ :=
      sqChainAux_spec n n [(10, 1)] hchain (by simp) (by simp only [headVal]; omega)
        (by simp only [headVal]; omega)
    obtain ⟨⟨s, m⟩, rest, hout⟩ := List.exists_cons_of_ne_nil hne
    rw [hout] at hc hlt ⊢
    exact digitsDesc_correct _ n hc hn (by simpa [headBound, headVal] using hlt)

theorem newton_ge_sqrt (n x : ℕ) (hx : 0 < x) : Nat.sqrt n ≤ (x + n / x) / 2 := by
  have hq2 : n < x * (n / x + 1) := by
    nlinarith [Nat.div_add_mod n x, Nat.mod_lt n hx]
  have hs2 : Nat.sqrt n * Nat.sqrt n ≤ n := Nat.sqrt_le n
  have key : 2 * Nat.sqrt n ≤ x + n / x := by
    by_contra hcon
    push_neg at hcon
    have hq2' : (n : ℤ) < (x : ℤ) * (((n / x : ℕ) : ℤ) + 1) := by exact_mod_cast hq2
    have hs2' : ((Nat.sqrt n : ℕ) : ℤ) * ((Nat.sqrt n : ℕ) : ℤ) ≤ (n : ℤ) := by
      exact_mod_cast hs2
    have hcon' : (x : ℤ) + ((n / x : ℕ) : ℤ) < 2 * ((Nat.sqrt n : ℕ) : ℤ) := by
      exact_mod_cast hcon
    have hx0 : (0 : ℤ) ≤ (x : ℤ) := Int.natCast_nonneg x
    have hq0 : (0 : ℤ) ≤ ((n / x : ℕ) : ℤ) := Int.natCast_nonneg _
    have hs0 : (0 : ℤ) ≤ ((Nat.sqrt n : ℕ) : ℤ) := Int.natCast_nonneg _
    nlinarith [sq_nonneg ((x : ℤ) - ((n / x : ℕ) : ℤ) - 1), hq2', hs2', hcon',
      hx0, hq0, hs0]
  omega

theorem newton_exit_le (n x : ℕ) (_hx : 0 < x) (hexit : ¬ (x + n / x) / 2 < x) :
    x * x ≤ n := by
  have hq : x ≤ n / x := by omega
  calc x * x ≤ x * (n / x) := Nat.mul_le_mul_left _ hq
  _ ≤ n := Nat.mul_div_le n x

theorem newton_halves (n x : ℕ) (hs : Nat.sqrt n < x) :
    (x + n / x) / 2 ≤ (x + Nat.sqrt n) / 2 := by
  have hxpos : 0 < x := by omega
  have hq : n / x ≤ Nat.sqrt n := by
    have hlt : n < (Nat.sqrt n + 1) * x := by
      calc n < (Nat.sqrt n + 1) * (Nat.sqrt n + 1) := Nat.lt_succ_sqrt n
      _ ≤ (Nat.sqrt n + 1) * x := Nat.mul_le_mul_left _ (by omega)
    have := (Nat.div_lt_iff_lt_mul hxpos).mpr (by linarith [hlt] : n < (Nat.sqrt n + 1) * x)
    omega
  exact Nat.div_le_div_right (by omega)

theorem isqrtAux_eq (n : ℕ) (hn : 0 < n) :
    ∀ (fuel x : ℕ), Nat.sqrt n ≤ x → x - Nat.sqrt n < 2 ^ fuel →
      isqrtAux fuel n x = Nat.sqrt n := by
  intro fuel
  induction fuel with
  | zero =>
    intro x h1 h2
    have hx : x = Nat.sqrt n := by simp at h2; omega
    simp [isqrtAux, hx]
  | succ f ih =>
    intro x h1 h2
    have hxpos : 0 < x := by
      have := Nat.sqrt_pos.mpr hn
      omega
    simp only [isqrtAux]
    by_cases hlt : (x + n / x) / 2 < x
    · rw [if_pos hlt]
      rcases eq_or_lt_of_le h1 with heq | hgt
      · exfalso
        have := newton_ge_sqrt n x hxpos
        omega
      · have hhalf := newton_halves n x hgt
        apply ih
        · exact newton_ge_sqrt n x hxpos
        · have hp : (2 : ℕ) ^ (f + 1) = 2 * 2 ^ f := by rw [pow_succ]; ring
          omega
    · rw [if_neg hlt]
      have hxx := newton_exit_le n x hxpos hlt
      have hle : x ≤ Nat.sqrt n := Nat.le_sqrt.mpr hxx
      omega

theorem isqrt_eq_sqrt (n : ℕ) : isqrt n = Nat.sqrt n := by
  unfold isqrt
  by_cases h0 : n = 0
  · rw [if_pos h0, h0]
    simp
  · rw [if_neg h0]
    have hn : 0 < n := Nat.pos_of_ne_zero h0
    obtain ⟨hd1, hdle, hdlt⟩ := natDigits_correct n hn
    have hseed2 : n < 10 ^ ((natDigits n + 1) / 2) * 10 ^ ((natDigits n + 1) / 2) := by
      rw [← pow_add]
      exact lt_of_lt_of_le hdlt (Nat.pow_le_pow_right (by norm_num) (by omega))
    have hsle : Nat.sqrt n < 10 ^ ((natDigits n + 1) / 2) := Nat.sqrt_lt.mpr hseed2
    apply isqrtAux_eq n hn
    · rw [pow10_eq]
      omega
    · rw [pow10_eq]
      have hub : 10 ^ ((natDigits n + 1) / 2) ≤ 10 ^ natDigits n :=
        Nat.pow_le_pow_right (by norm_num) (by omega)
      have h16 : 10 ^ natDigits n < 2 ^ (4 * natDigits n + 5) := by
        have h1 : 10 ^ natDigits n ≤ 16 ^ natDigits n :=
          Nat.pow_le_pow_left (by norm_num) _
        have h2 : (16 : ℕ) ^ natDigits n = 2 ^ (4 * natDigits n) := by
          rw [show (16 : ℕ) = 2 ^ 4 from rfl, ← pow_mul]
        have h3 : (2 : ℕ) ^ (4 * natDigits n) < 2 ^ (4 * natDigits n + 5) :=
          Nat.pow_lt_pow_right (by norm_num) (by omega)
        omega
      omega

theorem decEqVal_iff (x y : Dec) : decEqVal x y = true ↔ x.toRat = y.toRat := by
  unfold decEqVal Dec.toRat
  have hx : 0 ≤ x.e - min x.e y.e := by omega
  have hy : 0 ≤ y.e - min x.e y.e := by omega
  have h10 : (10 : ℚ) ≠ 0 := by norm_num
  have key : ∀ (c e : ℤ), 0 ≤ e - min x.e y.e →
      (c : ℚ) * 10 ^ e =
        ((c * ((pow10 (e - min x.e y.e).toNat : ℕ) : ℤ) : ℤ) : ℚ) * 10 ^ min x.e y.e := by
    intro c e he
    push_cast
    rw [pow10_eq]
    push_cast
    rw [← zpow_natCast (10 : ℚ) (e - min x.e y.e).toNat, Int.toNat_of_nonneg he,
      mul_assoc, ← zpow_add₀ h10, sub_add_cancel]
  rw [key x.c x.e hx, key y.c y.e hy, beq_iff_eq]
  constructor
  · intro h
    rw [h]
  · intro h
    have := mul_right_cancel₀ (zpow_ne_zero (min x.e y.e) h10) h
    exact_mod_cast this

/-! ## Claim theorems -/

/-- C1: for the reference inputs, `calculate_pi` returns the known
truncated digits of π: `calculate_pi(0) = "3"`,
`calculate_pi(10) = "3.1415926535"`, and `calculate_pi(50)` matches the
first 50 known decimal digits of π. -/
theorem calculate_pi_reference_values :
    calculate_pi (.int 0) = .ok "3" ∧
    calculate_pi (.int 10) = .ok "3.1415926535" ∧
    calculate_pi (.int 50) =
      .ok "3.14159265358979323846264338327950288419716939937510" :=
  ⟨by rfl, by rfl, by rfl⟩

/-- C3: prefix monotonicity fails on the code.  Dropping the last
character of `calculate_pi(n+1)` does not always give `calculate_pi(n)`:
it fails at `n = 0` (the dropped string keeps the decimal point, "3." vs
"3") and, substantively, at `n = 761`, where the five guard digits are too
few to keep the estimate below the run of six nines at decimal places
762-767 of π (the Feynman point), so `calculate_pi(761)` ends in a
rounded-up digit.  It does hold at neighbouring indices such as
`n = 10` and `n = 760`. -/
theorem drop_last_digit_disagrees :
    dropLastAgrees 0 = false ∧
    dropLastAgrees 761 = false ∧
    dropLastAgrees 10 = true ∧
    dropLastAgrees 760 = true :=
  ⟨by rfl, by rfl, by rfl, by rfl⟩

/-- C5 counterexample: `calculate_pi(2.9)` does not fail with
`InvalidInput` although 2.9 is not an integer; `int()` coercion truncates
it and the call returns π to two places. -/
theorem validation_counterexample :
    ratTwoPointNine = 29 / 10 ∧
    calculate_pi (.float ratTwoPointNine) = .ok "3.14" ∧
    calculate_pi (.float ratTwoPointNine) ≠ .error .invalidInput := by
  refine ⟨?_, by rfl, ?_⟩
  · rw [show ((29 : ℚ) / 10) = ((29 : ℤ) : ℚ) / ((10 : ℕ) : ℚ) by norm_num]
    exact (Rat.num_div_den ratTwoPointNine).symm
  · intro h
    rw [show calculate_pi (.float ratTwoPointNine) = .ok "3.14" from rfl] at h
    exact Except.noConfusion h

/-- C5 (amended): `calculate_pi` first coerces its argument with `int()`;
inputs whose coercion fails (such as a non-numeric string) or whose
coerced value is negative fail with `InvalidInput`; a coerced value above
10000 fails with `PrecisionLimitExceeded`; 10000 itself succeeds; and all
of this validation happens before the decimal context is touched (a
validation failure leaves the ambient precision unchanged). -/
theorem validation_behaviour :
    calculate_pi (.str "abc") = .error .invalidInput ∧
    calculate_pi (.int (-1)) = .error .invalidInput ∧
    calculate_pi (.int 10001) = .error .precisionLimitExceeded ∧
    (calculate_pi (.int 10000)).isOk = true ∧
    (∀ x p, (validateInput x).isOk = false → (calculatePiCtx x p).2 = p) := by
  refine ⟨by rfl, by rfl, by rfl, by decide, ?_⟩
  intro x p h
  unfold calculatePiCtx
  cases hv : validateInput x with
  | error e => rfl
  | ok m =>
    rw [hv] at h
    simp [Except.isOk, Except.toBool] at h

/-- Witness for C5: the validation clause applied to the concrete
rejected input "abc" leaves a context precision of 28 unchanged. -/
theorem validation_behaviour_witness :
    (calculatePiCtx (.str "abc") 28).2 = 28 :=
  validation_behaviour.2.2.2.2 (.str "abc") 28 (by rfl)

/-- C7: the loop has no iteration cap in the code; it terminates only
because the equality break fires.  Concretely the break fires within 14
iterations at the maximal precision 10005 (14 = ⌈log₂ 10005⌉) and within
5 iterations at precision 15. -/
theorem loop_breaks_within_log_iterations :
    (glLoop 10005 14 (glInit 10005)).isSome = true ∧
    glLoop 15 64 (glInit 15) = glLoop 15 5 (glInit 15) :=
  ⟨by decide, by decide⟩

/-- C8 counterexample: the decimal context is not unchanged after
`calculate_pi` returns: starting from the module default precision 28, a
call with `n_digits = 0` leaves the ambient precision at 5, not 28. -/
theorem context_mutation_counterexample :
    ¬ (calculatePiCtx (.int 0) 28).2 = 28 := by
  rw [show (calculatePiCtx (.int 0) 28).2 = 5 from rfl]
  omega

/-- C8 (amended): the returned value is a function of the input alone,
but `calculate_pi` mutates the ambient decimal context: validation
failures leave the incoming precision unchanged, while any computed call
leaves the process-wide precision at `n_digits + 5`. -/
theorem context_mutation_behaviour :
    ∀ x p, (calculatePiCtx x p).1 = calculate_pi x ∧
      ((validateInput x).isOk = false → (calculatePiCtx x p).2 = p) ∧
      (∀ m, validateInput x = .ok m → (calculatePiCtx x p).2 = m + 5) := by
  intro x p
  refine ⟨?_, ?_, ?_⟩
  · unfold calculatePiCtx calculate_pi
    cases validateInput x <;> rfl
  · intro h
    unfold calculatePiCtx
    cases hv : validateInput x with
    | error e => rfl
    | ok m =>
      rw [hv] at h
      simp [Except.isOk, Except.toBool] at h
  · intro m hm
    unfold calculatePiCtx
    rw [hm]

/-- Witness for C8: the mutation clause at the concrete call
`calculate_pi(0)` from default precision 28 gives final precision 5. -/
theorem context_mutation_witness :
    (calculatePiCtx (.int 0) 28).2 = 0 + 5 :=
  (context_mutation_behaviour (.int 0) 28).2.2 0 (by rfl)

/-- C9: determinism.  The value returned by `calculate_pi` does not
depend on the ambient context precision at call time, so two calls with
the same `requested_digits` (in particular one made right after the
other, in the context the first call left behind) return identical
output. -/
theorem deterministic_output :
    ∀ x p₁ p₂, (calculatePiCtx x p₁).1 = (calculatePiCtx x p₂).1 := by
  intro x p₁ p₂
  unfold calculatePiCtx
  cases validateInput x <;> rfl

/-- C10: implicit `int()` coercion.  Whatever `int()` accepts is
accepted: any input coercing to `i` behaves exactly like the integer
input `i`; the float 2.9 truncates to 2 and yields π to two places; the
numeric string "7" yields π to seven places; inputs `int()` rejects fail
with `InvalidInput`. -/
theorem int_coercion_behaviour :
    (∀ x i, pyInt x = some i → calculate_pi x = calculate_pi (.int i)) ∧
    ratTrunc ratTwoPointNine = 2 ∧
    calculate_pi (.float ratTwoPointNine) = .ok "3.14" ∧
    calculate_pi (.str "7") = .ok "3.1415926" ∧
    (∀ x, pyInt x = none → calculate_pi x = .error .invalidInput) := by
  refine ⟨?_, by rfl, by rfl, by rfl, ?_⟩
  · intro x i h
    unfold calculate_pi validateInput
    rw [h]
    rfl
  · intro x h
    unfold calculate_pi validateInput
    rw [h]

/-- Witness for C10: the coercion clause applied to the concrete float
2.9, which `int()` takes to 2. -/
theorem int_coercion_witness :
    calculate_pi (.float ratTwoPointNine) = calculate_pi (.int 2) :=
  int_coercion_behaviour.1 (.float ratTwoPointNine) 2 (by rfl)

/-- C4: the Gauss-Legendre iterator starts from the state `a₀ = 1`,
`b₀ = 1 / sqrt 2`, `t₀ = 1/4`, `p₀ = 1` (each computed at the working
precision `P ≥ 2`; `t₀` is exactly the value 1/4), updates each
iteration by `a' = (a+b)/2`, `b' = sqrt (a*b)`,
`t' = t - p*(a-a')^2`, `p' = 2*p`, and the loop returns precisely the
first iterate whose update satisfies `a == a'` or `b == b'`, where `==`
is exact value equality of the decimals computed at the working
precision. -/
theorem gauss_legendre_iterator (P : ℕ) (hP : 2 ≤ P) :
    (glInit P).a = decInt 1 ∧
    (glInit P).b = decDiv P (decInt 1) (decSqrt P (decInt 2)) ∧
    ((glInit P).t).toRat = 1 / 4 ∧
    (glInit P).p = decInt 1 ∧
    (∀ s, glStep P s =
      ⟨decDiv P (decAdd P s.a s.b) (decInt 2),
       decSqrt P (decMul P s.a s.b),
       decSub P s.t (decMul P s.p (decSq P (decSub P s.a
         (decDiv P (decAdd P s.a s.b) (decInt 2))))),
       decMul P (decInt 2) s.p⟩) ∧
    (∀ s, glStop P s =
      (decEqVal s.a (glStep P s).a || decEqVal s.b (glStep P s).b)) ∧
    (∀ s, glStop P s = true ↔
      (s.a.toRat = (glStep P s).a.toRat ∨ s.b.toRat = (glStep P s).b.toRat)) ∧
    (∀ fuel s0 s', glLoop P fuel s0 = some s' ↔
      ∃ k, k < fuel ∧ (∀ j, j < k → glStop P ((glStep P)^[j] s0) = false) ∧
        glStop P ((glStep P)^[k] s0) = true ∧ s' = (glStep P)^[k] s0) :=
  ⟨rfl, rfl, glInit_t_toRat P hP, rfl, fun _ => rfl, fun _ => rfl,
   fun s => by
     unfold glStop
     rw [Bool.or_eq_true, decEqVal_iff, decEqVal_iff],
   fun fuel s0 s' => glLoop_some_iff P fuel s0 s'⟩

/-- Witness for C4: at the working precision 15 used for the reference
input 10, the initial `t` is exactly the value 1/4. -/
theorem gauss_legendre_iterator_witness :
    ((glInit 15).t).toRat = 1 / 4 :=
  (gauss_legendre_iterator 15 (by norm_num)).2.2.1

/-- C6: on success, the string returned for `requested_digits = n` is the
rendering of the quantization of the estimate: its quantized coefficient
is the truncation toward zero of `estimate * 10^n` (for a nonnegative
estimate, `q.c ≤ estimate * 10^n < q.c + 1`), the string has exactly `n`
digit characters after the decimal point when `n > 0`, and no decimal
point at all when `n = 0`; in particular `calculate_pi(0)` returns
"3". -/
theorem output_format_truncation :
    (∀ n s, calculatePiCore n = .ok s →
      ∃ st est q,
        glLoop (n + 5) LOOP_FUEL (glInit (n + 5)) = some st ∧
        piEstimate (n + 5) st = .ok est ∧
        quantizeDown (n + 5) est n = some q ∧
        s = renderDec q ∧
        (0 ≤ est.c → (q.c : ℚ) ≤ est.toRat * 10 ^ n ∧
          est.toRat * 10 ^ n < (q.c : ℚ) + 1) ∧
        (0 < n → ∃ ip fp, s.toList = ip ++ '.' :: fp ∧ fp.length = n ∧
          ip ≠ [] ∧ ∀ ch ∈ fp, ch.isDigit = true) ∧
        (n = 0 → '.' ∉ s.toList)) ∧
    calculatePiCore 0 = .ok "3" := by
  constructor
  · intro n s h
    unfold calculatePiCore at h
    split at h
    · exact absurd h (by simp)
    next st heq =>
      split at h
      · exact absurd h (by simp)
      next est heq2 =>
        split at h
        · exact absurd h (by simp)
        next q heq3 =>
          injection h with h
          obtain ⟨hqe, hbounds⟩ := quantizeDown_spec _ _ _ _ heq3
          refine ⟨st, est, q, heq, heq2, heq3, h.symm, hbounds, ?_, ?_⟩
          · intro hn
            obtain ⟨ip, fp, hsplit, hlen, hip, hdig⟩ :=
              renderChars_shape q n hn hqe
            exact ⟨ip, fp, by rw [← h]; exact hsplit, hlen, hip, hdig⟩
          · intro hn0
            subst hn0
            have he0 : q.e = 0 := by rw [hqe]; simp
            rw [← h]
            exact renderChars_no_dot q he0
  · rfl

/-- Witness for C6: the format clause at the reference input 10, whose
output "3.1415926535" is produced by the quantized estimate. -/
theorem output_format_truncation_witness :
    calculatePiCore 10 = .ok "3.1415926535" ∧
    (∃ st est q,
        glLoop (10 + 5) LOOP_FUEL (glInit (10 + 5)) = some st ∧
        piEstimate (10 + 5) st = .ok est ∧
        quantizeDown (10 + 5) est 10 = some q ∧
        "3.1415926535" = renderDec q ∧
        (0 ≤ est.c → (q.c : ℚ) ≤ est.toRat * 10 ^ 10 ∧
          est.toRat * 10 ^ 10 < (q.c : ℚ) + 1) ∧
        (0 < 10 → ∃ ip fp, ("3.1415926535" : String).toList = ip ++ '.' :: fp ∧
          fp.length = 10 ∧ ip ≠ [] ∧ ∀ ch ∈ fp, ch.isDigit = true) ∧
        (10 = 0 → '.' ∉ ("3.1415926535" : String).toList)) :=
  ⟨by rfl, output_format_truncation.1 10 "3.1415926535" (by rfl)⟩

end UnlimitedPi

